import Mathlib

/-!
# Verification of the API-Image-Organizer batch import pipeline

A shallow embedding of the two source files of the repository
(`import_worker.py` and `app.py`) together with proofs about the embedded
definitions.

Conventions of the embedding:

* Python strings are modelled as `String` / `List Char`; Python's
  `str.strip()` is modelled over the ASCII whitespace characters.
* EXIF numeric values (`ExposureTime`, `FNumber`, `FocalLength`, GPS
  components), which PIL delivers as exact rationals (`IFDRational`),
  are modelled as `ℚ`; Python's `int()` conversion truncates toward zero.
* The SQLite tables `images` and `tags` are modelled as association
  lists; `INSERT`/`UPDATE` statements become list operations, and the
  `UNIQUE` integrity error of an existing tag row becomes the
  membership test that decides between the insert and the update arm.
* Effects of one pipeline run (file hashing, `shutil.copy2` failures,
  classifier answers) are supplied by a per-path environment; running
  "the same directory twice" means running with the same path list and
  the same environment.
* `time.sleep`, attempt counts and progress-file writes are recorded in
  the result so that timing/retry claims become statements about data.
-/

/-! ## Python string primitives -/

/-- The ASCII whitespace characters stripped by Python's `str.strip()`. -/
def isPyWs (c : Char) : Bool :=
  c = ' ' || c = '\t' || c = '\n' || c = '\r' || c = '\x0b' || c = '\x0c'

/-- Remove trailing whitespace (the right half of Python `str.strip()`). -/
def stripR (l : List Char) : List Char :=
  (l.reverse.dropWhile isPyWs).reverse

/-- Python `str.strip()` on a list of characters: remove leading and
trailing whitespace. -/
def pyStripL (l : List Char) : List Char :=
  stripR (l.dropWhile isPyWs)

/-- Python `str.strip()` on a `String`. -/
def pyStrip (s : String) : String :=
  ⟨pyStripL s.toList⟩

/-- Python `str.split(',')`: split on every comma; `"".split(',') = ['']`. -/
def splitOnComma : List Char → List (List Char)
  | [] => [[]]
  | c :: cs =>
    if c = ',' then [] :: splitOnComma cs
    else
      match splitOnComma cs with
      | [] => [[c]]
      | t :: ts => (c :: t) :: ts

/-- Apply `f` to the last token of a token list (proof helper relating
comma-splitting to appends at the right end). -/
def modLast (f : List Char → List Char) : List (List Char) → List (List Char)
  | [] => []
  | [t] => [f t]
  | t :: t' :: ts => t :: modLast f (t' :: ts)

/-- Whether `pat` is an initial segment of `l` (helper for `str.find`). -/
def leadMatch : List Char → List Char → Bool
  | [], _ => true
  | _ :: _, [] => false
  | a :: as, b :: bs => a = b && leadMatch as bs

/-- Python `str.find(pat)` restricted to a found/not-found answer:
the first index at which `pat` occurs in `l`, if any. -/
def findSubAux (pat : List Char) : List Char → Option Nat
  | [] => if pat.isEmpty then some 0 else none
  | c :: cs =>
    if leadMatch pat (c :: cs) then some 0
    else (findSubAux pat cs).map (· + 1)

/-! ## Classifier response parsing (`classify_image_with_ollama`,
`import_worker.py` lines 171-193) -/

/-- The token filter and empty-result fallback shared by the parsing
paths: strip each token, drop empty tokens, drop tokens containing a
space, and substitute `uncategorized` when nothing survives.
(`import_worker.py` lines 181-191.) -/
def finishTags (toks : List (List Char)) : List String :=
  let toks := (toks.map pyStripL).filter (fun t => !t.isEmpty)
  let toks := toks.filter (fun t => !t.contains ' ')
  if toks.isEmpty then ["uncategorized"] else toks.map (fun t => ⟨t⟩)

/-- Embedding of the response-parsing section of
`classify_image_with_ollama`: locate `TAGS:`, split the (stripped)
remainder on commas, else split the whole text; then filter tokens.
(`import_worker.py` lines 175-193.) -/
def parseTags (responseText : String) : List String :=
  let l := responseText.toList
  match findSubAux ("TAGS:".toList) l with
  | some i => finishTags (splitOnComma (pyStripL (l.drop (i + 5))))
  | none => finishTags (splitOnComma l)

/-- The parsing algorithm exactly as claim C3 words it ("every token
that is empty after trimming or contains whitespace is discarded"):
comma-split the text after the first `TAGS:` marker (or the whole text),
trim each token, discard tokens that are empty or contain any
whitespace character, and fall back to `uncategorized`. -/
def claimParseTags (responseText : String) : List String :=
  let l := responseText.toList
  let toks :=
    match findSubAux ("TAGS:".toList) l with
    | some i => splitOnComma (l.drop (i + 5))
    | none => splitOnComma l
  let toks := (toks.map pyStripL).filter (fun t => !t.isEmpty && !t.any isPyWs)
  if toks.isEmpty then ["uncategorized"] else toks.map (fun t => ⟨t⟩)

/-- The parsing algorithm as claim C3 words it, amended only in the
token filter: a token is discarded when it is empty after trimming or
contains a *space character* (rather than any whitespace character). -/
def amendedParseTags (responseText : String) : List String :=
  let l := responseText.toList
  let toks :=
    match findSubAux ("TAGS:".toList) l with
    | some i => splitOnComma (l.drop (i + 5))
    | none => splitOnComma l
  let toks := (toks.map pyStripL).filter (fun t => !t.isEmpty && !t.contains ' ')
  if toks.isEmpty then ["uncategorized"] else toks.map (fun t => ⟨t⟩)

/-! ## Classifier retry loop (`classify_image_with_ollama`,
`import_worker.py` lines 133-214) -/

/-- Outcome of one attempt against the Ollama endpoint, as the code
distinguishes them: a 200 response with a body text, a non-200 response,
a `requests.exceptions.RequestException` (transport failure), or any
other exception (unreadable image file, malformed response body, ...). -/
inductive OllamaOutcome where
  | ok (text : String)
  | httpErr
  | reqErr
  | otherErr
deriving DecidableEq, Repr

/-- Embedding of `classify_image_with_ollama`: `env n` is the outcome
of attempt number `n`; the result is the returned tag list together
with the number of attempts made and the total seconds slept
(`time.sleep(2)` before each retry).  The recursion on the remaining
retry budget mirrors the recursive retry of the source. -/
def classifyRun (env : Nat → OllamaOutcome) : Nat → Nat → List String × Nat × Nat
  | attempt, retries =>
    match env attempt, retries with
    | .ok text, _ => (parseTags text, 1, 0)
    | .httpErr, r + 1 =>
      let res := classifyRun env (attempt + 1) r
      (res.1, res.2.1 + 1, res.2.2 + 2)
    | .httpErr, 0 => (["uncategorized"], 1, 0)
    | .reqErr, r + 1 =>
      let res := classifyRun env (attempt + 1) r
      (res.1, res.2.1 + 1, res.2.2 + 2)
    | .reqErr, 0 => (["error"], 1, 0)
    | .otherErr, _ => (["error"], 1, 0)

/-- An attempt outcome that the code retries on: a non-200 response or
a transport failure. -/
def retryable : OllamaOutcome → Prop
  | .httpErr => True
  | .reqErr => True
  | _ => False

instance (o : OllamaOutcome) : Decidable (retryable o) := by
  cases o <;> simp [retryable] <;> infer_instance

/-! ## Numeric rendering helpers -/

/-- Python `int()` applied to an exact rational: truncation toward
zero (floor for nonnegative values, ceiling for negative ones). -/
def pyInt (q : ℚ) : ℤ :=
  if 0 ≤ q then ⌊q⌋ else ⌈q⌉

/-- Smallest `k ≤ 20` with `den ∣ 10 ^ k`: the number of decimal
digits that renders a fraction with this denominator exactly, when the
denominator is a product of twos and fives (bounded search; every value
the claims evaluate terminates). -/
def decExpAux (den : ℕ) : ℕ → ℕ → Option ℕ
  | 0, _ => none
  | fuel + 1, k => if den ∣ 10 ^ k then some k else decExpAux den fuel (k + 1)

/-- CPython's `str()` of a float whose value is an exact decimal:
minimal decimal digits, always at least one fractional digit
(`str(2.0) = "2.0"`, `str(0.004) = "0.004"`).  PIL's `IFDRational`
prints as `str(float(value))`, which this models for decimally exact
values; non-decimal rationals get a fraction-shaped fallback that no
claim evaluates. -/
def pyFloatRepr (q : ℚ) : String :=
  let n := q.num.natAbs
  let d := q.den
  let sign := if q.num < 0 then "-" else ""
  match decExpAux d 21 0 with
  | some 0 => sign ++ toString (n / d) ++ ".0"
  | some k =>
    let scaled := n * 10 ^ k / d
    let intPart := scaled / 10 ^ k
    let fracPart := scaled % 10 ^ k
    let fracStr := toString fracPart
    let pad := String.mk (List.replicate (k - fracStr.length) '0')
    sign ++ toString intPart ++ "." ++ pad ++ fracStr
  | none => sign ++ toString n ++ "/" ++ toString d

/-- Python `str()` of an exact `Fraction` (`"num/den"`, or just the
numerator when the denominator is 1), used by the GPS coordinate
rendering where the source does arithmetic on `IFDRational`s. -/
def pyFracRepr (q : ℚ) : String :=
  if q.den = 1 then toString q.num
  else toString q.num ++ "/" ++ toString q.den

/-! ## EXIF metadata extraction (`extract_image_metadata`,
`import_worker.py` lines 50-131) -/

/-- The GPS IFD entries the source reads: keys 1-4 of `GPSInfo`
(latitude reference, latitude d/m/s triple, longitude reference,
longitude d/m/s triple).  A missing key models a `KeyError`. -/
structure GpsRaw where
  latRef : Option String
  lat : Option (ℚ × ℚ × ℚ)
  lonRef : Option String
  lon : Option (ℚ × ℚ × ℚ)
deriving DecidableEq, Repr

/-- The EXIF tags `extract_image_metadata` consults. -/
structure ExifData where
  dateTimeOriginal : Option String
  make : Option String
  model : Option String
  lensModel : Option String
  fNumber : Option ℚ
  exposureTime : Option ℚ
  isoSpeedRatings : Option ℤ
  focalLength : Option ℚ
  gpsInfo : Option GpsRaw
deriving DecidableEq, Repr

/-- The metadata dictionary the extractor returns: every field starts
as `None` and is filled in field by field. -/
structure Metadata where
  date_taken : Option String := none
  camera_model : Option String := none
  lens : Option String := none
  aperture : Option String := none
  shutter_speed : Option String := none
  iso : Option String := none
  focal_length : Option String := none
  gps : Option String := none
  width : Option ℤ := none
  height : Option ℤ := none
deriving DecidableEq, Repr

/-- The tail of the extraction that follows the shutter-speed step:
ISO, focal length and GPS (`import_worker.py` lines 107-127).  A
`GPSInfo` dictionary holding keys 2 and 4 but missing key 1 or key 3
raises `KeyError`, which the outer handler turns into "stop here";
since GPS is the last field this equals returning `m` unchanged. -/
def extractTail (m : Metadata) (e : ExifData) : Metadata :=
  let m := match e.isoSpeedRatings with
    | some i => { m with iso := some ("ISO " ++ toString i) }
    | none => m
  let m := match e.focalLength with
    | some fl => { m with focal_length := some (pyFloatRepr fl ++ "mm") }
    | none => m
  match e.gpsInfo with
  | some g =>
    match g.lat, g.lon with
    | some la, some lo =>
      match g.latRef, g.lonRef with
      | some lref, some lonref =>
        let latv := la.1 + la.2.1 / 60 + la.2.2 / 3600
        let lonv := lo.1 + lo.2.1 / 60 + lo.2.2 / 3600
        let latv := if lref = "S" then -latv else latv
        let lonv := if lonref = "W" then -lonv else lonv
        { m with gps := some (pyFracRepr latv ++ "," ++ pyFracRepr lonv) }
      | _, _ => m
    | _, _ => m
  | none => m

/-- The extraction steps preceding the shutter speed, in source order:
date taken, camera, lens, aperture (`import_worker.py` lines 76-98).
Only the date parse failure is caught *per field*
(`except ValueError: pass`). -/
def extractHead (dateParse : String → Option String) (m0 : Metadata)
    (e : ExifData) : Metadata :=
  let m := match e.dateTimeOriginal with
    | some s =>
      match dateParse s with
      | some iso => { m0 with date_taken := some iso }
      | none => m0
    | none => m0
  let m := match e.make, e.model with
    | some mk, some md => { m with camera_model := some (pyStrip (mk ++ " " ++ md)) }
    | none, some md => { m with camera_model := some md }
    | _, _ => m
  let m := match e.lensModel with
    | some lm => { m with lens := some lm }
    | none => m
  match e.fNumber with
  | some f => if 0 < f then { m with aperture := some ("f/" ++ pyFloatRepr f) } else m
  | none => m

/-- The per-tag extraction steps in source order: `extractHead`, then
the shutter speed, then `extractTail`.  A `ZeroDivisionError` from
`1/exp_time` when the exposure time is zero propagates to the handler
at the end of `extract_image_metadata`, so the fields after the shutter
speed are never reached: that is the `t = 0` arm returning `m` without
calling `extractTail`. -/
def extractFields (dateParse : String → Option String) (m0 : Metadata)
    (e : ExifData) : Metadata :=
  let m := extractHead dateParse m0 e
  match e.exposureTime with
  | some t =>
    if t < 1 then
      if t = 0 then m
      else extractTail
        { m with shutter_speed := some ("1/" ++ toString (pyInt (1 / t)) ++ "s") } e
    else extractTail { m with shutter_speed := some (pyFloatRepr t ++ "s") } e
  | none => extractTail m e

/-- Embedding of `extract_image_metadata`.  `img = none` models
`Image.open` failing (the outer handler returns the all-`None`
dictionary); `exif = none` models a missing or empty `_getexif()`
result; `dateParse` stands for `datetime.strptime(s, "%Y:%m:%d
%H:%M:%S")`, returning the ISO-8601 rendering on success and `none` in
place of `ValueError`. -/
def extract_image_metadata (img : Option (ℤ × ℤ))
    (dateParse : String → Option String) (exif : Option ExifData) : Metadata :=
  match img with
  | none => {}
  | some (w, h) =>
    let m : Metadata := { width := some w, height := some h }
    match exif with
    | none => m
    | some e => extractFields dateParse m e

/-! ## Catalog database (`images` and `tags` tables) -/

/-- One row of the `images` table, restricted to the columns the claims
reason about: the autoincrement id, the unique content hash, and the
stored tag list (`json.dumps(tags)`). -/
structure ImageRec where
  id : Nat
  hash : String
  tags : List String
deriving DecidableEq, Repr

/-- The catalog: the `images` table, the `tags` table (`name`,
`count`), and the next autoincrement id. -/
structure DB where
  images : List ImageRec
  tagRows : List (String × ℤ)
  nextId : Nat
deriving DecidableEq, Repr

/-- The empty catalog right after `CREATE TABLE`. -/
def dbEmpty : DB := ⟨[], [], 0⟩

/-- The tag-row adjustment the import worker performs per tag
(`import_worker.py` lines 357-363): `INSERT INTO tags (name, count)
VALUES (?, 1)`, and on the uniqueness violation `UPDATE tags SET count
= count + 1 WHERE name = ?`. -/
def bumpTag (rows : List (String × ℤ)) (t : String) : List (String × ℤ) :=
  if rows.any (fun r => r.1 = t) then
    rows.map (fun r => if r.1 = t then (r.1, r.2 + 1) else r)
  else rows ++ [(t, 1)]

/-- `UPDATE tags SET count = count - 1 WHERE name = ?`
(`app.py` line 146): a no-op when no row has that name. -/
def decTag (rows : List (String × ℤ)) (t : String) : List (String × ℤ) :=
  rows.map (fun r => if r.1 = t then (r.1, r.2 - 1) else r)

/-- The per-tag adjustment of `update_image_tags` when the record was
found (`app.py` lines 155-162): insert the row with count 1 when the
name is new, else increment only when the tag was not already on the
record. -/
def bumpTagUpd (cur : List String) (rows : List (String × ℤ)) (t : String) :
    List (String × ℤ) :=
  if rows.any (fun r => r.1 = t) then
    if t ∈ cur then rows else rows.map (fun r => if r.1 = t then (r.1, r.2 + 1) else r)
  else rows ++ [(t, 1)]

/-- The per-tag adjustment of `update_image_tags` when no record with
the given id exists (`cur_image` is `None`): the insert arm still runs,
the increment arm is skipped. -/
def bumpTagNoRec (rows : List (String × ℤ)) (t : String) : List (String × ℤ) :=
  if rows.any (fun r => r.1 = t) then rows else rows ++ [(t, 1)]

/-- The record insertion of `process_images` (`import_worker.py` lines
329-365): append the new `images` row and run the tag loop, all before
one `conn.commit()`. -/
def dbInsertImage (db : DB) (h : String) (tags : List String) : DB :=
  { images := db.images ++ [⟨db.nextId, h, tags⟩]
    tagRows := tags.foldl bumpTag db.tagRows
    nextId := db.nextId + 1 }

/-- Embedding of `update_image_tags` (`app.py` lines 135-165): read the
record's current tags, decrement counts for removed tags, store the new
tag list, then run the insert-or-conditionally-increment loop. -/
def dbUpdateTags (db : DB) (imageId : Nat) (newTags : List String) : DB :=
  match db.images.find? (fun r => r.id = imageId) with
  | none => { db with tagRows := newTags.foldl bumpTagNoRec db.tagRows }
  | some r =>
    let cur := r.tags
    let rows1 := cur.foldl
      (fun rows t => if t ∈ newTags then rows else decTag rows t) db.tagRows
    let images' := db.images.map
      (fun x => if x.id = imageId then { x with tags := newTags } else x)
    let rows2 := newTags.foldl (bumpTagUpd cur) rows1
    { db with images := images', tagRows := rows2 }

/-- The stored count of a tag name: the `count` column of its row, or 0
when the `tags` table has no such row. -/
def lookupCount (rows : List (String × ℤ)) (t : String) : ℤ :=
  match rows.find? (fun r => r.1 = t) with
  | some r => r.2
  | none => 0

/-- The number of `images` rows whose stored tag list contains `t`. -/
def refCount (db : DB) (t : String) : Nat :=
  (db.images.filter (fun r => t ∈ r.tags)).length

/-- The tag-count invariant of claim C2: every tag's stored count is
the number of records referencing it. -/
def TagInv (db : DB) : Prop :=
  ∀ t : String, lookupCount db.tagRows t = (refCount db t : ℤ)

/-- A catalog mutation of the kinds claim C2 quantifies over: a record
insertion by the import worker, or a tag-set edit through
`update_image_tags`. -/
inductive TagOp where
  | insert (h : String) (tags : List String)
  | update (imageId : Nat) (tags : List String)
deriving DecidableEq, Repr

/-- Apply one catalog mutation. -/
def applyOp (db : DB) : TagOp → DB
  | .insert h tags => dbInsertImage db h tags
  | .update i tags => dbUpdateTags db i tags

/-- Apply a sequence of catalog mutations in order. -/
def applyOps (db : DB) : List TagOp → DB
  | [] => db
  | op :: ops => applyOps (applyOp db op) ops

/-- Well-formedness of one mutation against the current catalog:
tag lists carry no duplicate tag, and a tag edit targets an existing
record id. -/
def wfOp (db : DB) : TagOp → Bool
  | .insert _ tags => tags.dedup = tags
  | .update i tags => (tags.dedup = tags) && db.images.any (fun r => r.id = i)

/-- Well-formedness of a mutation sequence, each op checked against the
catalog it runs on. -/
def wfOps (db : DB) : List TagOp → Bool
  | [] => true
  | op :: ops => wfOp db op && wfOps (applyOp db op) ops

/-! ## Progress file and liveness check -/

/-- The progress record `update_progress` writes to
`import_progress.json`: `{total, current, status, timestamp}`. -/
structure Progress where
  total : Nat
  current : Nat
  status : String
  timestamp : ℚ
deriving DecidableEq, Repr

/-- Embedding of `is_import_running` (`app.py` lines 199-227) on a
readable progress record: report whether an import is considered live,
and return the record as left on disk (the stale branch force-writes
status `completed` with a fresh timestamp). -/
def is_import_running (now : ℚ) (p : Progress) : Bool × Progress :=
  if p.status ≠ "completed" then
    if now - p.timestamp < 300 then (true, p)
    else (false, { p with status := "completed", timestamp := now })
  else (false, p)

/-! ## Import pipeline (`process_images`, `import_worker.py`
lines 241-380) -/

/-- Per-item outcome of the pipeline, for stating per-file claims. -/
inductive ItemOutcome where
  | hashFail
  | dupSkip
  | errorSkip
  | inserted
deriving DecidableEq, Repr

/-- The environment of one file path: the result of
`calculate_file_hash` (`none` models the logged hashing failure),
whether the copy/thumbnail/insert section raises (`shutil.copy2` being
the representative failure the item-level handler catches), and the tag
list the classifier returns for the file (the classifier itself never
raises). -/
structure ItemEnv where
  hashResult : Option String
  copyFails : Bool
  tags : List String
deriving DecidableEq, Repr

/-- One progress-file write: the arguments of one `update_progress`
call. -/
structure ProgWrite where
  total : Nat
  current : Nat
  status : String
deriving DecidableEq, Repr

/-- The state threaded through `process_images`: the catalog
connection, the `processed` and `skipped` counters, the scan total, the
sequence of progress writes so far, and the per-item outcomes in scan
order. -/
structure PipeState where
  db : DB
  processed : Nat
  skipped : Nat
  total : Nat
  writes : List ProgWrite
  outcomes : List ItemOutcome
deriving DecidableEq, Repr

/-- The hashes present in the catalog (`SELECT id FROM images WHERE
hash = ?` succeeding). -/
def hashesOf (db : DB) : List String :=
  db.images.map (fun r => r.hash)

/-- Embedding of the per-file body of `process_images`
(`import_worker.py` lines 294-375): hash (a failure logs and continues
without touching any counter), dedup check (a hit bumps `skipped` and
`processed` and writes progress), otherwise copy/classify/insert with
the item-level exception handler (which also bumps `processed` and
writes progress). -/
def processItem (env : String → ItemEnv) (st : PipeState) (path : String) :
    PipeState :=
  let e := env path
  match e.hashResult with
  | none => { st with outcomes := st.outcomes ++ [.hashFail] }
  | some h =>
    if (hashesOf st.db).contains h then
      { st with
        skipped := st.skipped + 1
        processed := st.processed + 1
        writes := st.writes ++ [⟨st.total, st.processed + 1, "processing"⟩]
        outcomes := st.outcomes ++ [.dupSkip] }
    else if e.copyFails then
      { st with
        processed := st.processed + 1
        writes := st.writes ++ [⟨st.total, st.processed + 1, "processing"⟩]
        outcomes := st.outcomes ++ [.errorSkip] }
    else
      { st with
        db := dbInsertImage st.db h e.tags
        processed := st.processed + 1
        writes := st.writes ++ [⟨st.total, st.processed + 1, "processing"⟩]
        outcomes := st.outcomes ++ [.inserted] }

/-- The batch partition `image_files[i:i+batch_size]` of
`process_images` (for `batchSize ≥ 1`, the only values Python's
`range(0, n, batch_size)` accepts). -/
def chunked (batchSize : Nat) : List α → List (List α)
  | [] => []
  | x :: xs =>
    (x :: xs.take (batchSize - 1)) :: chunked batchSize (xs.drop (batchSize - 1))
termination_by l => l.length
decreasing_by
  simp only [List.length_cons, List.length_drop]
  omega

/-- Embedding of `process_images`: write the `starting` record, fold
the per-file body over the batched file list, then write the final
`completed` record with `current = total`. -/
def runImport (env : String → ItemEnv) (paths : List String)
    (batchSize : Nat) (db0 : DB) : PipeState :=
  let total := paths.length
  let st0 : PipeState := ⟨db0, 0, 0, total, [⟨total, 0, "starting"⟩], []⟩
  let st1 := (chunked batchSize paths).foldl
    (fun st batch => batch.foldl (processItem env) st) st0
  { st1 with writes := st1.writes ++ [⟨total, total, "completed"⟩] }

/-- The outcome an item has when the catalog no longer changes: used to
state what the second of two identical runs does per file. -/
def staticOutcome (env : String → ItemEnv) (db : DB) (path : String) :
    ItemOutcome :=
  match (env path).hashResult with
  | none => .hashFail
  | some h => if (hashesOf db).contains h then .dupSkip else .errorSkip

/-- The unbatched fold of the per-file body: `runImport` with the
batching flattened away (chunking is pure partitioning, proved
equivalent below). -/
def runFlat (env : String → ItemEnv) (paths : List String) (db0 : DB) :
    PipeState :=
  let total := paths.length
  let st0 : PipeState := ⟨db0, 0, 0, total, [⟨total, 0, "starting"⟩], []⟩
  let st1 := paths.foldl (processItem env) st0
  { st1 with writes := st1.writes ++ [⟨total, total, "completed"⟩] }

/-- The structural well-formedness the catalog maintains: the
tag-count invariant, duplicate-free stored tag lists, distinct record
ids, and every id below the autoincrement cursor. -/
def GoodDB (db : DB) : Prop :=
  TagInv db ∧ (∀ r ∈ db.images, r.tags.Nodup) ∧
    (db.images.map (fun r => r.id)).Nodup ∧
    (∀ r ∈ db.images, r.id < db.nextId)

/-! ## Helper lemmas: classifier -/

theorem finishTags_ne_nil (toks : List (List Char)) : finishTags toks ≠ [] := by
  simp only [finishTags]
  split
  · simp
  · next h =>
    simp only [ne_eq, List.map_eq_nil_iff]
    simpa [List.isEmpty_iff] using h

theorem parseTags_ne_nil (s : String) : parseTags s ≠ [] := by
  simp only [parseTags]
  split <;> exact finishTags_ne_nil _

theorem retryable_cases {o : OllamaOutcome} (h : retryable o) :
    o = .httpErr ∨ o = .reqErr := by
  cases o <;> simp_all [retryable]

theorem classifyRun_bounds (env : Nat → OllamaOutcome) :
    ∀ retries attempt,
      1 ≤ (classifyRun env attempt retries).2.1 ∧
      (classifyRun env attempt retries).2.1 ≤ retries + 1 ∧
      (classifyRun env attempt retries).2.2 =
        2 * ((classifyRun env attempt retries).2.1 - 1) ∧
      (classifyRun env attempt retries).1 ≠ []
  | 0, attempt => by
    cases h : env attempt <;> simp [classifyRun, h, parseTags_ne_nil]
  | retries + 1, attempt => by
    obtain ⟨ih1, ih2, ih3, ih4⟩ := classifyRun_bounds env retries (attempt + 1)
    cases h : env attempt with
    | ok text => simp [classifyRun, h, parseTags_ne_nil]
    | otherErr => simp [classifyRun, h]
    | httpErr =>
      simp only [classifyRun, h]
      exact ⟨by omega, by omega, by omega, ih4⟩
    | reqErr =>
      simp only [classifyRun, h]
      exact ⟨by omega, by omega, by omega, ih4⟩

/-! ## Claim theorems: classifier retry (C4, C10) -/

/-- C4: the classifier retries non-success responses and transport
failures with a budget of exactly 2 retries (at most 3 attempts), with
a 2-second sleep before each retry (total sleep `2 * (attempts - 1)`);
it always returns a non-empty tag list (never an exception); and when
the whole budget is exhausted the result is `["error"]` when the final
attempt was a transport failure and `["uncategorized"]` when it was a
non-success HTTP response. -/
theorem classifier_retry_contract (env : Nat → OllamaOutcome) :
    (classifyRun env 0 2).2.1 ≤ 3 ∧
    (classifyRun env 0 2).2.2 = 2 * ((classifyRun env 0 2).2.1 - 1) ∧
    (classifyRun env 0 2).1 ≠ [] ∧
    ((∀ i, i < 3 → retryable (env i)) →
      (classifyRun env 0 2).2.1 = 3 ∧
      (classifyRun env 0 2).1 =
        (if env 2 = .reqErr then ["error"] else ["uncategorized"])) := by
  obtain ⟨hb1, hb2, hb3, hb4⟩ := classifyRun_bounds env 2 0
  refine ⟨hb2, hb3, hb4, fun hr => ?_⟩
  rcases retryable_cases (hr 0 (by norm_num)) with h0 | h0 <;>
    rcases retryable_cases (hr 1 (by norm_num)) with h1 | h1 <;>
      rcases retryable_cases (hr 2 (by norm_num)) with h2 | h2 <;>
        simp [classifyRun, h0, h1, h2]

/-- Witness for C4: with every attempt a transport failure, the
classifier makes 3 attempts and returns `["error"]`. -/
theorem classifier_retry_contract_witness :
    (classifyRun (fun _ => .reqErr) 0 2).2.1 = 3 ∧
    (classifyRun (fun _ => .reqErr) 0 2).1 = ["error"] := by
  have h := (classifier_retry_contract (fun _ => .reqErr)).2.2.2
    (fun i _ => by simp [retryable])
  simpa using h

/-- C10: any classifier failure that is neither a transport failure nor
a non-success response (unreadable file, malformed body, ...) returns
`["error"]` immediately: one attempt, no sleep, regardless of the
remaining retry budget. -/
theorem classifier_immediate_error (env : Nat → OllamaOutcome)
    (attempt retries : Nat) (h : env attempt = .otherErr) :
    classifyRun env attempt retries = (["error"], 1, 0) := by
  cases retries <;> simp [classifyRun, h]

/-- Witness for C10. -/
theorem classifier_immediate_error_witness :
    classifyRun (fun _ => OllamaOutcome.otherErr) 0 2 = (["error"], 1, 0) :=
  classifier_immediate_error (fun _ => OllamaOutcome.otherErr) 0 2 rfl

/-! ## Claim theorems: liveness check (C7) -/

/-- C7: for a progress record with status other than `completed`, a
liveness check within 300 seconds of its timestamp reports running and
leaves the record unmodified; from 300 seconds on it reports
not-running and force-writes status `completed` (with a fresh
timestamp); a record with status `completed` reports not-running and is
left unmodified. -/
theorem liveness_check_contract (now : ℚ) (p : Progress) :
    (p.status ≠ "completed" → now - p.timestamp < 300 →
      is_import_running now p = (true, p)) ∧
    (p.status ≠ "completed" → 300 ≤ now - p.timestamp →
      is_import_running now p =
        (false, { p with status := "completed", timestamp := now })) ∧
    (p.status = "completed" → is_import_running now p = (false, p)) := by
  refine ⟨fun hs ht => ?_, fun hs ht => ?_, fun hs => ?_⟩
  · simp [is_import_running, hs, ht]
  · simp [is_import_running, hs, not_lt.mpr ht]
  · simp [is_import_running, hs]

/-- Witness for C7: a `processing` record 400 seconds old is healed to
`completed`; one 200 seconds old is reported running and untouched. -/
theorem liveness_check_contract_witness :
    is_import_running 1000 ⟨5, 2, "processing", 600⟩ =
      (false, ⟨5, 2, "completed", 1000⟩) ∧
    is_import_running 1000 ⟨5, 2, "processing", 800⟩ =
      (true, ⟨5, 2, "processing", 800⟩) := by
  constructor
  · exact (liveness_check_contract 1000 ⟨5, 2, "processing", 600⟩).2.1
      (by simp) (by norm_num)
  · exact (liveness_check_contract 1000 ⟨5, 2, "processing", 800⟩).1
      (by simp) (by norm_num)

/-! ## Helper lemmas: metadata extraction -/

theorem extractTail_shutter (m : Metadata) (e : ExifData) :
    (extractTail m e).shutter_speed = m.shutter_speed := by
  unfold extractTail
  repeat' split
  all_goals rfl

theorem extractTail_of_none (m : Metadata) (e : ExifData)
    (h1 : e.isoSpeedRatings = none) (h2 : e.focalLength = none)
    (h3 : e.gpsInfo = none) : extractTail m e = m := by
  simp only [extractTail, h1, h2, h3]

theorem extractTail_congr (m : Metadata) (e e' : ExifData)
    (h1 : e.isoSpeedRatings = e'.isoSpeedRatings)
    (h2 : e.focalLength = e'.focalLength) (h3 : e.gpsInfo = e'.gpsInfo) :
    extractTail m e = extractTail m e' := by
  unfold extractTail
  rw [h1, h2, h3]

theorem extractHead_congr (dp : String → Option String) (m0 : Metadata)
    (e e' : ExifData) (h1 : e.dateTimeOriginal = e'.dateTimeOriginal)
    (h2 : e.make = e'.make) (h3 : e.model = e'.model)
    (h4 : e.lensModel = e'.lensModel) (h5 : e.fNumber = e'.fNumber) :
    extractHead dp m0 e = extractHead dp m0 e' := by
  unfold extractHead
  rw [h1, h2, h3, h4, h5]

/-! ## Claim theorems: shutter speed (C9) and metadata error
tolerance (C8) -/

/-- C9 counterexample: the code formats exposure time `3/5`
(`0.6` seconds) as `"1/1s"` — `int(1/0.6)` truncates `1.66…` to 1 —
while the claim's formula `1/<round(1/t)>s` prescribes `"1/2s"`,
since `1/0.6` rounded to the nearest integer is 2. -/
theorem shutter_speed_round_cex :
    (extract_image_metadata (some (10, 10)) (fun _ => none)
      (some ⟨none, none, none, none, none, some (mkRat 3 5), none, none,
        none⟩)).shutter_speed = some "1/1s" ∧
    round ((1 : ℚ) / mkRat 3 5) = 2 := by
  constructor
  · have hval : pyInt ((1 : ℚ) / mkRat 3 5) = 1 := by
      have h53 : ((1 : ℚ) / mkRat 3 5) = ((5 : ℤ) : ℚ) / ((3 : ℕ) : ℚ) := by
        rw [Rat.mkRat_eq_div]; norm_num
      unfold pyInt
      rw [h53, if_pos (by positivity), Rat.floor_intCast_div_natCast 5 3]
      rfl
    simp only [extract_image_metadata, extractFields]
    rw [if_pos (by rw [Rat.mkRat_eq_div]; norm_num)]
    rw [if_neg (by rw [Rat.mkRat_eq_div]; norm_num)]
    rw [extractTail_shutter]
    rw [hval]
    rfl
  · have h53 : ((1 : ℚ) / mkRat 3 5) = ((5 : ℤ) : ℚ) / ((3 : ℕ) : ℚ) := by
      rw [Rat.mkRat_eq_div]; norm_num
    rw [round_eq, h53]
    rw [show (((5 : ℤ) : ℚ) / ((3 : ℕ) : ℚ) + 1 / 2) =
      ((13 : ℤ) : ℚ) / ((6 : ℕ) : ℚ) by push_cast; norm_num]
    rw [Rat.floor_intCast_div_natCast 13 6]
    rfl

/-- C9 (amended): for a positive exposure time `t`, the shutter-speed
field is `"1/<trunc(1/t)>s"` when `t < 1` — where `trunc` truncates
toward zero (equivalently, floors the positive value `1/t`) rather
than rounding to the nearest integer — and `"<t>s"` otherwise; in
particular `t = 0.004` yields `"1/250s"` and `t = 2.0` yields
`"2.0s"`. -/
theorem shutter_speed_formula (dp : String → Option String) (w h : ℤ)
    (e : ExifData) (t : ℚ) (het : e.exposureTime = some t) (ht : 0 < t) :
    (extract_image_metadata (some (w, h)) dp (some e)).shutter_speed =
      some (if t < 1 then "1/" ++ toString ⌊1 / t⌋ ++ "s"
            else pyFloatRepr t ++ "s") := by
  have hne : t ≠ 0 := ne_of_gt ht
  have hfloor : pyInt (1 / t) = ⌊1 / t⌋ := by
    unfold pyInt
    rw [if_pos (by positivity)]
  simp only [extract_image_metadata, extractFields, het]
  by_cases hlt : t < 1
  · rw [if_pos hlt, if_neg hne, extractTail_shutter, hfloor, if_pos hlt]
  · rw [if_neg hlt, extractTail_shutter, if_neg hlt]

/-- Witness for C9: the two example exposures of the claim. -/
theorem shutter_speed_formula_witness :
    (extract_image_metadata (some (100, 100)) (fun _ => none)
      (some ⟨none, none, none, none, none, some (mkRat 1 250), none, none,
        none⟩)).shutter_speed = some "1/250s" ∧
    (extract_image_metadata (some (100, 100)) (fun _ => none)
      (some ⟨none, none, none, none, none, some 2, none, none,
        none⟩)).shutter_speed = some "2.0s" := by
  constructor
  · rw [shutter_speed_formula (fun _ => none) 100 100 _ (mkRat 1 250) rfl
      (by norm_num [Rat.mkRat_eq_div])]
    rw [if_pos (by norm_num [Rat.mkRat_eq_div])]
    rw [show ((1 : ℚ) / mkRat 1 250) = ((250 : ℤ) : ℚ) by
      norm_num [Rat.mkRat_eq_div]]
    rw [Int.floor_intCast]
    rfl
  · rw [shutter_speed_formula (fun _ => none) 100 100 _ 2 rfl (by norm_num)]
    rw [if_neg (by norm_num)]
    rfl

/-- C8 counterexample: with EXIF `ExposureTime = 0` and
`ISOSpeedRatings = 100`, the `1/exp_time` ZeroDivisionError is caught
by the handler around the *whole* extraction, so the ISO field — which
is derivable, as removing the exposure entry shows — is left absent,
contradicting "a failure while deriving one field leaves only that
field absent". -/
theorem metadata_zero_exposure_cex :
    (extract_image_metadata (some (10, 10)) (fun _ => none)
      (some ⟨none, none, none, none, none, some 0, some 100, none,
        none⟩)).iso = none ∧
    (extract_image_metadata (some (10, 10)) (fun _ => none)
      (some ⟨none, none, none, none, none, none, some 100, none,
        none⟩)).iso = some "ISO 100" := by
  constructor <;> rfl

/-- C8 (amended): the extractor never raises and tolerates corrupt
metadata, but only the capture-timestamp parse is guarded per field:
an unparsable date leaves just the date absent (the record equals the
one extracted with no date entry), while a zero exposure time aborts
the remainder of the extraction — the record equals the one extracted
with the exposure, ISO, focal-length and GPS entries all removed, so
every field from the shutter speed on is absent even when derivable. -/
theorem metadata_partial_failure (dp : String → Option String) (w h : ℤ)
    (e : ExifData) :
    (e.exposureTime = some 0 →
      extract_image_metadata (some (w, h)) dp (some e) =
        extract_image_metadata (some (w, h)) dp
          (some { e with exposureTime := none, isoSpeedRatings := none,
                         focalLength := none, gpsInfo := none })) ∧
    (∀ s, e.dateTimeOriginal = some s → dp s = none →
      extract_image_metadata (some (w, h)) dp (some e) =
        extract_image_metadata (some (w, h)) dp
          (some { e with dateTimeOriginal := none })) := by
  constructor
  · intro hexp
    norm_num [extract_image_metadata, extractFields, hexp]
    rw [extractTail_of_none _ _ rfl rfl rfl]
    exact extractHead_congr dp _ e _ rfl rfl rfl rfl rfl
  · intro s hdate hdp
    have hhead : extractHead dp ⟨none, none, none, none, none, none, none,
        none, some w, some h⟩ e =
        extractHead dp ⟨none, none, none, none, none, none, none,
          none, some w, some h⟩ { e with dateTimeOriginal := none } := by
      simp only [extractHead, hdate, hdp]
    simp only [extract_image_metadata, extractFields]
    rw [hhead]
    rcases hexp2 : e.exposureTime with _ | t
    · simp only [hexp2]
      exact extractTail_congr _ e _ rfl rfl rfl
    · simp only [hexp2]
      split_ifs
      · rfl
      · exact extractTail_congr _ e _ rfl rfl rfl
      · exact extractTail_congr _ e _ rfl rfl rfl

/-- Witness for C8: a zero-exposure EXIF block with an ISO entry
extracts identically to one with the whole tail removed. -/
theorem metadata_partial_failure_witness :
    extract_image_metadata (some (10, 10)) (fun _ => none)
      (some ⟨none, none, none, none, none, some 0, some 100, none, none⟩) =
    extract_image_metadata (some (10, 10)) (fun _ => none)
      (some ⟨none, none, none, none, none, none, none, none, none⟩) := by
  have h := (metadata_partial_failure (fun _ => none) 10 10
    ⟨none, none, none, none, none, some 0, some 100, none, none⟩).1 rfl
  exact h

/-! ## Helper lemmas: Python string splitting and stripping -/

theorem splitOnComma_ne_nil (l : List Char) : splitOnComma l ≠ [] := by
  match l with
  | [] => simp [splitOnComma]
  | c :: cs =>
    simp only [splitOnComma]
    split
    · simp
    · split <;> simp

theorem splitOnComma_cons_comma (m : List Char) :
    splitOnComma (',' :: m) = [] :: splitOnComma m := by
  simp [splitOnComma]

theorem splitOnComma_cons_of_ne (c : Char) (m : List Char) (hc : ¬ c = ',') :
    splitOnComma (c :: m) = (splitOnComma m).modifyHead (fun t => c :: t) := by
  obtain ⟨t, ts, h⟩ := List.exists_cons_of_ne_nil (splitOnComma_ne_nil m)
  simp [splitOnComma, hc, h]

theorem splitOnComma_dropWhile (l : List Char) :
    splitOnComma (l.dropWhile isPyWs) =
      (splitOnComma l).modifyHead (List.dropWhile isPyWs) := by
  induction l with
  | nil => simp [splitOnComma]
  | cons c cs ih =>
    obtain ⟨t, ts, h⟩ := List.exists_cons_of_ne_nil (splitOnComma_ne_nil cs)
    by_cases hw : isPyWs c
    · have hc : ¬ c = ',' := fun hcc => by
        subst hcc; exact absurd hw (by decide)
      rw [List.dropWhile_cons, if_pos hw, ih, splitOnComma_cons_of_ne c cs hc]
      simp [h, List.dropWhile_cons, hw]
    · rw [List.dropWhile_cons, if_neg hw]
      by_cases hc : c = ','
      · subst hc
        simp [splitOnComma_cons_comma, List.dropWhile_cons]
      · rw [splitOnComma_cons_of_ne c cs hc]
        simp [h, List.dropWhile_cons, hw]

theorem modLast_cons_of_ne_nil (f : List Char → List Char) (t : List Char)
    (ts : List (List Char)) (h : ts ≠ []) :
    modLast f (t :: ts) = t :: modLast f ts := by
  obtain ⟨a, as, rfl⟩ := List.exists_cons_of_ne_nil h
  rfl

theorem modLast_append_single (f : List Char → List Char)
    (A : List (List Char)) (a : List Char) :
    modLast f (A ++ [a]) = A ++ [f a] := by
  induction A with
  | nil => rfl
  | cons x xs ih =>
    rw [List.cons_append, modLast_cons_of_ne_nil _ _ _ (by simp), ih,
      List.cons_append]

theorem modifyHead_append_of_ne_nil (g : List Char → List Char)
    (A B : List (List Char)) (hA : A ≠ []) :
    (A ++ B).modifyHead g = A.modifyHead g ++ B := by
  cases A with
  | nil => exact absurd rfl hA
  | cons t ts => simp

theorem modifyHead_modLast (x c : Char) (L : List (List Char)) :
    (modLast (fun t => t ++ [c]) L).modifyHead (fun t => x :: t) =
      modLast (fun t => t ++ [c]) (L.modifyHead (fun t => x :: t)) := by
  match L with
  | [] => rfl
  | [t] => simp [modLast]
  | t :: t' :: ts => simp [modLast]

theorem splitOnComma_append_single (l : List Char) (c : Char) :
    splitOnComma (l ++ [c]) =
      if c = ',' then splitOnComma l ++ [[]]
      else modLast (fun t => t ++ [c]) (splitOnComma l) := by
  induction l with
  | nil =>
    by_cases hc : c = ','
    · subst hc
      simp [splitOnComma_cons_comma, splitOnComma]
    · rw [List.nil_append, splitOnComma_cons_of_ne c [] hc, if_neg hc]
      simp [splitOnComma, modLast]
  | cons x l ih =>
    by_cases hx : x = ','
    · subst hx
      rw [List.cons_append, splitOnComma_cons_comma, ih, splitOnComma_cons_comma]
      by_cases hc : c = ','
      · simp [hc]
      · rw [if_neg hc, if_neg hc,
          modLast_cons_of_ne_nil _ _ _ (splitOnComma_ne_nil l)]
    · rw [List.cons_append, splitOnComma_cons_of_ne x _ hx, ih,
        splitOnComma_cons_of_ne x l hx]
      by_cases hc : c = ','
      · rw [if_pos hc, if_pos hc,
          modifyHead_append_of_ne_nil _ _ _ (splitOnComma_ne_nil l)]
      · rw [if_neg hc, if_neg hc, modifyHead_modLast]

theorem splitOnComma_reverse (l : List Char) :
    splitOnComma l.reverse = ((splitOnComma l).map List.reverse).reverse := by
  induction l with
  | nil => simp [splitOnComma]
  | cons c cs ih =>
    rw [List.reverse_cons, splitOnComma_append_single, ih]
    by_cases hc : c = ','
    · subst hc
      rw [if_pos rfl, splitOnComma_cons_comma]
      simp
    · rw [if_neg hc, splitOnComma_cons_of_ne c cs hc]
      obtain ⟨t, ts, h⟩ := List.exists_cons_of_ne_nil (splitOnComma_ne_nil cs)
      rw [h, List.modifyHead_cons]
      simp only [List.map_cons, List.reverse_cons]
      rw [modLast_append_single]

theorem dropWhile_idem (p : Char → Bool) (l : List Char) :
    List.dropWhile p (List.dropWhile p l) = List.dropWhile p l := by
  induction l with
  | nil => rfl
  | cons c cs ih =>
    by_cases h : p c <;> simp [List.dropWhile_cons, h, ih]

theorem stripR_eq_nil_iff (l : List Char) :
    stripR l = [] ↔ ∀ x ∈ l, isPyWs x := by
  simp [stripR, List.dropWhile_eq_nil_iff]

theorem stripR_cons (c : Char) (cs : List Char) :
    stripR (c :: cs) =
      if stripR cs = [] then (if isPyWs c then [] else [c])
      else c :: stripR cs := by
  have hmain : stripR (c :: cs) =
      (if (List.dropWhile isPyWs cs.reverse).isEmpty = true
        then List.dropWhile isPyWs [c]
        else List.dropWhile isPyWs cs.reverse ++ [c]).reverse := by
    rw [stripR, List.reverse_cons, List.dropWhile_append]
  by_cases hnil : List.dropWhile isPyWs cs.reverse = []
  · have h1 : stripR cs = [] := by simp [stripR, hnil]
    rw [hmain, if_pos (by simp [hnil]), if_pos h1]
    by_cases hw : isPyWs c <;> simp [List.dropWhile_cons, hw]
  · have h1 : stripR cs ≠ [] := by simp [stripR, hnil]
    rw [hmain, if_neg (by simp [hnil]), if_neg h1]
    simp [stripR]

theorem dropWhile_stripR_comm (l : List Char) :
    List.dropWhile isPyWs (stripR l) = stripR (List.dropWhile isPyWs l) := by
  induction l with
  | nil => rfl
  | cons c cs ih =>
    by_cases hw : isPyWs c
    · rw [List.dropWhile_cons, if_pos hw, stripR_cons]
      by_cases hnil : stripR cs = []
      · rw [if_pos hnil, if_pos hw]
        have hdw : List.dropWhile isPyWs cs = [] :=
          List.dropWhile_eq_nil_iff.mpr ((stripR_eq_nil_iff cs).mp hnil)
        simp [hdw, stripR]
      · rw [if_neg hnil, List.dropWhile_cons, if_pos hw]
        exact ih
    · rw [List.dropWhile_cons, if_neg hw, stripR_cons]
      by_cases hnil : stripR cs = []
      · rw [if_pos hnil, if_neg hw]
        simp [List.dropWhile_cons, hw]
      · rw [if_neg hnil, List.dropWhile_cons, if_neg hw]

theorem stripR_idem (l : List Char) : stripR (stripR l) = stripR l := by
  simp [stripR, List.reverse_reverse, dropWhile_idem]

theorem pyStripL_dropWhile (l : List Char) :
    pyStripL (List.dropWhile isPyWs l) = pyStripL l := by
  simp [pyStripL, dropWhile_idem]

theorem pyStripL_stripR (l : List Char) :
    pyStripL (stripR l) = pyStripL l := by
  simp only [pyStripL]
  rw [dropWhile_stripR_comm, stripR_idem]

theorem pyStripL_reverse_dropWhile (x : List Char) :
    pyStripL (List.dropWhile isPyWs x).reverse = pyStripL x.reverse := by
  have h : (List.dropWhile isPyWs x).reverse = stripR x.reverse := by
    simp [stripR, List.reverse_reverse]
  rw [h, pyStripL_stripR]

theorem map_modifyHead_eq (f g : List Char → List Char)
    (h : ∀ x, f (g x) = f x) (L : List (List Char)) :
    (L.modifyHead g).map f = L.map f := by
  cases L <;> simp [List.modifyHead, h]

theorem map_pyStripL_split_dropWhile (m : List Char) :
    (splitOnComma (List.dropWhile isPyWs m)).map pyStripL =
      (splitOnComma m).map pyStripL := by
  rw [splitOnComma_dropWhile]
  exact map_modifyHead_eq pyStripL (List.dropWhile isPyWs) pyStripL_dropWhile _

theorem map_pyStripL_split_stripR (m : List Char) :
    (splitOnComma (stripR m)).map pyStripL = (splitOnComma m).map pyStripL := by
  have h1 : stripR m = (List.dropWhile isPyWs m.reverse).reverse := rfl
  rw [h1, splitOnComma_reverse, splitOnComma_dropWhile, splitOnComma_reverse]
  rw [List.map_reverse, List.map_map]
  rw [map_modifyHead_eq (pyStripL ∘ List.reverse) (List.dropWhile isPyWs)
    (fun x => pyStripL_reverse_dropWhile x)]
  rw [List.map_reverse, List.map_map, List.reverse_reverse]
  exact List.map_congr_left (fun x _ => by simp [Function.comp])

theorem map_pyStripL_split_pyStripL (m : List Char) :
    (splitOnComma (pyStripL m)).map pyStripL = (splitOnComma m).map pyStripL := by
  simp only [pyStripL]
  rw [map_pyStripL_split_stripR, map_pyStripL_split_dropWhile]

/-! ## Claim theorems: classifier parsing (C3) -/

/-- C3 counterexample: for the response text `"TAGS: a\tb"` the code's
space-only filter keeps the tab-containing token `"a\tb"`, while the
claim's rule — discard every token that contains whitespace — yields
`["uncategorized"]`; so the claim as stated does not describe the
code. -/
theorem parse_tags_whitespace_cex :
    parseTags "TAGS: a\tb" = ["a\tb"] ∧
    claimParseTags "TAGS: a\tb" = ["uncategorized"] ∧
    parseTags "TAGS: a\tb" ≠ claimParseTags "TAGS: a\tb" := by
  refine ⟨by decide, by decide, by decide⟩

/-- C3 (amended): for every classifier response text, the result is the
comma-split of the text after the first `TAGS:` marker (of the whole
text when the marker is absent), each token trimmed, with every token
that is empty after trimming or contains a *space character* (rather
than any whitespace character) discarded, and `["uncategorized"]`
substituted when nothing survives; in particular
`"blah TAGS: cat, dog, red car, , sunny"` yields `[cat, dog, sunny]`
and `"cat, dog"` yields `[cat, dog]`. -/
theorem parse_tags_contract :
    (∀ s, parseTags s = amendedParseTags s) ∧
    parseTags "blah TAGS: cat, dog, red car, , sunny" =
      ["cat", "dog", "sunny"] ∧
    parseTags "cat, dog" = ["cat", "dog"] := by
  refine ⟨fun s => ?_, by decide, by decide⟩
  have hcomm : ∀ (M : List (List Char)),
      (M.filter fun t => !t.isEmpty).filter (fun t => !t.contains ' ') =
        M.filter fun t => !t.isEmpty && !t.contains ' ' := by
    intro M
    rw [List.filter_filter]
    exact List.filter_congr (fun t _ => Bool.and_comm _ _)
  cases hfind : findSubAux ("TAGS:".toList) s.toList with
  | none =>
    simp only [parseTags, amendedParseTags, finishTags, hfind]
    rw [hcomm]
  | some i =>
    simp only [parseTags, amendedParseTags, finishTags, hfind]
    rw [map_pyStripL_split_pyStripL, hcomm]

/-! ## Helper lemmas: batching is pure chunking -/

theorem chunked_flatten (bs : Nat) : ∀ (l : List String),
    (chunked bs l).flatten = l
  | [] => by simp [chunked]
  | x :: xs => by
    rw [chunked]
    have ih := chunked_flatten bs (xs.drop (bs - 1))
    simp only [List.flatten_cons, ih]
    simp [List.cons_append, List.take_append_drop]
termination_by l => l.length
decreasing_by
  simp only [List.length_cons, List.length_drop]
  omega

theorem foldl_flatten (f : PipeState → String → PipeState) (b : PipeState)
    (L : List (List String)) :
    L.foldl (fun st batch => batch.foldl f st) b = L.flatten.foldl f b := by
  induction L generalizing b with
  | nil => rfl
  | cons batch rest ih => simp [List.foldl_append, ih]

theorem runImport_eq_flat (env : String → ItemEnv) (paths : List String)
    (bs : Nat) (db0 : DB) :
    runImport env paths bs db0 = runFlat env paths db0 := by
  simp only [runImport, runFlat, foldl_flatten, chunked_flatten]

/-! ## Claim theorems: per-item counting (C5) -/

/-- C5 counterexample: a run over one file whose hashing fails ends
with `processed = 0` and writes no per-item progress record at all —
the hashing-failure arm `continue`s without `processed += 1` and
without `update_progress` — contradicting "processing that file
advances the processed counter by exactly one ... with the progress
record advanced". -/
theorem hash_failure_not_counted_cex :
    (runImport (fun _ => ⟨none, false, []⟩) ["a"] 20 dbEmpty).processed = 0 ∧
    (runImport (fun _ => ⟨none, false, []⟩) ["a"] 20 dbEmpty).writes =
      [⟨1, 0, "starting"⟩, ⟨1, 1, "completed"⟩] :=
  ⟨by rw [runImport_eq_flat]; rfl, by rw [runImport_eq_flat]; rfl⟩

/-- C5 (amended): every per-item outcome other than a hashing failure
— success, duplicate skip, or a caught per-item error — advances the
processed counter by exactly one and appends one progress write
carrying the new count with status `processing`; a hashing failure is
logged and skipped without advancing the counter, without writing the
progress record, and without writing any catalog record (the state is
unchanged except for the outcome log). -/
theorem process_item_counter (env : String → ItemEnv) (st : PipeState)
    (p : String) :
    ((env p).hashResult = none →
      processItem env st p =
        { st with outcomes := st.outcomes ++ [.hashFail] }) ∧
    (∀ h, (env p).hashResult = some h →
      (processItem env st p).processed = st.processed + 1 ∧
      (processItem env st p).writes =
        st.writes ++ [⟨st.total, st.processed + 1, "processing"⟩]) := by
  constructor
  · intro h
    simp [processItem, h]
  · intro h hh
    constructor <;> (simp only [processItem, hh]; split_ifs <;> rfl)

/-- Witness for C5: a hash-failing item leaves the counter and writes
untouched; a hashing-success item advances the counter to 1. -/
theorem process_item_counter_witness :
    processItem (fun _ => ⟨none, false, []⟩) ⟨dbEmpty, 0, 0, 1, [], []⟩ "a" =
      ⟨dbEmpty, 0, 0, 1, [], [.hashFail]⟩ ∧
    (processItem (fun _ => ⟨some "h", false, ["x"]⟩)
      ⟨dbEmpty, 0, 0, 1, [], []⟩ "a").processed = 1 :=
  ⟨(process_item_counter (fun _ => ⟨none, false, []⟩)
      ⟨dbEmpty, 0, 0, 1, [], []⟩ "a").1 rfl,
   ((process_item_counter (fun _ => ⟨some "h", false, ["x"]⟩)
      ⟨dbEmpty, 0, 0, 1, [], []⟩ "a").2 "h" rfl).1⟩

/-! ## Helper lemmas: pipeline state facts -/

theorem processItem_step_none (env : String → ItemEnv) (st : PipeState)
    (p : String) (hh : (env p).hashResult = none) :
    processItem env st p = { st with outcomes := st.outcomes ++ [.hashFail] } := by
  simp [processItem, hh]

theorem processItem_step_some (env : String → ItemEnv) (st : PipeState)
    (p : String) (h : String) (hh : (env p).hashResult = some h) :
    (processItem env st p).processed = st.processed + 1 ∧
    (processItem env st p).writes =
      st.writes ++ [⟨st.total, st.processed + 1, "processing"⟩] ∧
    (processItem env st p).total = st.total := by
  simp only [processItem, hh]
  split_ifs <;> exact ⟨rfl, rfl, rfl⟩

theorem processItem_total_eq (env : String → ItemEnv) (st : PipeState)
    (p : String) : (processItem env st p).total = st.total := by
  rcases hh : (env p).hashResult with _ | h
  · rw [processItem_step_none env st p hh]
  · exact (processItem_step_some env st p h hh).2.2

theorem foldl_progress_inv (env : String → ItemEnv) :
    ∀ (ps : List String) (st : PipeState),
      (∀ w ∈ st.writes, w.current ≤ st.processed ∧ w.total = st.total ∧
        w.status ≠ "completed") →
      List.Pairwise (fun a b => a.current ≤ b.current) st.writes →
      (ps.foldl (processItem env) st).total = st.total ∧
      st.processed ≤ (ps.foldl (processItem env) st).processed ∧
      (ps.foldl (processItem env) st).processed ≤ st.processed + ps.length ∧
      (∀ w ∈ (ps.foldl (processItem env) st).writes,
        w.current ≤ (ps.foldl (processItem env) st).processed ∧
        w.total = st.total ∧ w.status ≠ "completed") ∧
      List.Pairwise (fun a b => a.current ≤ b.current)
        (ps.foldl (processItem env) st).writes := by
  intro ps
  induction ps with
  | nil =>
    intro st h1 h2
    exact ⟨rfl, le_refl _, by simp, h1, h2⟩
  | cons p rest ih =>
    intro st h1 h2
    rcases hh : (env p).hashResult with _ | h
    · rw [List.foldl_cons, processItem_step_none env st p hh]
      obtain ⟨t, lo, hi, hw, hpw⟩ :=
        ih { st with outcomes := st.outcomes ++ [.hashFail] } h1 h2
      exact ⟨t, lo, by simpa using Nat.le_succ_of_le hi, hw, hpw⟩
    · obtain ⟨hproc, hwr, htot⟩ := processItem_step_some env st p h hh
      have h1' : ∀ w ∈ (processItem env st p).writes,
          w.current ≤ (processItem env st p).processed ∧
          w.total = (processItem env st p).total ∧ w.status ≠ "completed" := by
        intro w hwmem
        rw [hwr] at hwmem
        rw [hproc, htot]
        rcases List.mem_append.mp hwmem with hold | hnew
        · obtain ⟨hc, ht, hs⟩ := h1 w hold
          exact ⟨le_trans hc (Nat.le_succ _), ht, hs⟩
        · rw [List.mem_singleton.mp hnew]
          exact ⟨le_refl _, rfl, by simp⟩
      have h2' : List.Pairwise (fun a b => a.current ≤ b.current)
          (processItem env st p).writes := by
        rw [hwr]
        rw [List.pairwise_append]
        refine ⟨h2, by simp, ?_⟩
        intro a ha b hb
        rw [List.mem_singleton.mp hb]
        exact le_trans (h1 a ha).1 (Nat.le_succ _)
      obtain ⟨t, lo, hi, hw, hpw⟩ := ih (processItem env st p) h1' h2'
      rw [List.foldl_cons]
      refine ⟨t.trans htot, ?_, ?_, ?_, hpw⟩
      · exact le_trans (hproc ▸ Nat.le_succ _) lo
      · rw [hproc] at hi
        simpa [Nat.succ_add] using hi
      · intro w hwmem
        obtain ⟨hc, ht, hs⟩ := hw w hwmem
        exact ⟨hc, ht.trans htot, hs⟩

/-! ## Claim theorems: progress writes (C6) -/

/-- C6 counterexample: a run over one file that imports successfully
produces the write sequence `(1,0,starting), (1,1,processing),
(1,1,completed)` — the per-item write after the last item carries
`current = total` with status `processing`, and `current = total`
occurs at two writes, contradicting "equals the total item count
exactly once, at and only at the write that transitions the status to
completed; no write with status processing carries current equal to
total". -/
theorem progress_total_during_processing_cex :
    (runImport (fun _ => ⟨some "h1", false, ["x"]⟩) ["a"] 20 dbEmpty).writes =
      [⟨1, 0, "starting"⟩, ⟨1, 1, "processing"⟩, ⟨1, 1, "completed"⟩] ∧
    ((runImport (fun _ => ⟨some "h1", false, ["x"]⟩) ["a"] 20
        dbEmpty).writes.filter
      (fun w => w.status == "processing" && w.current == w.total)).length
        = 1 := by
  constructor <;> (rw [runImport_eq_flat]; rfl)

/-- C6 (amended): across one pipeline run the current value written to
the progress record is non-decreasing over the sequence of writes; the
final write is the run's only write with status `completed` and
carries `current = total`; but `current = total` may also occur on an
earlier write (the last `processing` write reaches it whenever every
scanned file advanced the counter, and the initial `starting` write
carries it for an empty scan). -/
theorem progress_write_contract (env : String → ItemEnv) (paths : List String)
    (bs : Nat) (db0 : DB) :
    List.Pairwise (fun a b => a.current ≤ b.current)
      (runImport env paths bs db0).writes ∧
    (runImport env paths bs db0).writes.getLast? =
      some ⟨paths.length, paths.length, "completed"⟩ ∧
    ((runImport env paths bs db0).writes.filter
      (fun w => w.status == "completed")).length = 1 ∧
    (∀ w ∈ (runImport env paths bs db0).writes, w.total = paths.length) := by
  rw [runImport_eq_flat]
  simp only [runFlat]
  obtain ⟨htot, hlo, hhi, hw, hpw⟩ := foldl_progress_inv env paths
    ⟨db0, 0, 0, paths.length, [⟨paths.length, 0, "starting"⟩], []⟩
    (by
      intro w hwmem
      rw [List.mem_singleton.mp hwmem]
      exact ⟨Nat.zero_le _, rfl, by simp⟩)
    (by simp)
  refine ⟨?_, ?_, ?_, ?_⟩
  · rw [List.pairwise_append]
    refine ⟨hpw, by simp, ?_⟩
    intro a ha b hb
    rw [List.mem_singleton.mp hb]
    exact le_trans (hw a ha).1 (by simpa using hhi)
  · exact List.getLast?_concat _
  · rw [List.filter_append]
    have hnil : (List.filter (fun w => w.status == "completed")
        (paths.foldl (processItem env)
          ⟨db0, 0, 0, paths.length, [⟨paths.length, 0, "starting"⟩],
            []⟩).writes) = [] := by
      rw [List.filter_eq_nil_iff]
      intro w hwmem
      have hs := (hw w hwmem).2.2
      simpa using hs
    rw [hnil]
    rfl
  · intro w hwmem
    rcases List.mem_append.mp hwmem with hold | hnew
    · exact (hw w hold).2.1
    · rw [List.mem_singleton.mp hnew]

/-- Witness for C6: the final write of a concrete one-file run, and
the total carried by its `starting` write. -/
theorem progress_write_contract_witness :
    (runImport (fun _ => ⟨some "h1", false, ["x"]⟩) ["a"] 20
      dbEmpty).writes.getLast? = some ⟨1, 1, "completed"⟩ ∧
    (⟨1, 0, "starting"⟩ : ProgWrite).total = 1 := by
  constructor
  · exact (progress_write_contract (fun _ => ⟨some "h1", false, ["x"]⟩)
      ["a"] 20 dbEmpty).2.1
  · exact (progress_write_contract (fun _ => ⟨some "h1", false, ["x"]⟩)
      ["a"] 20 dbEmpty).2.2.2 ⟨1, 0, "starting"⟩
      (by rw [runImport_eq_flat]; decide)

/-! ## Helper lemmas: catalog hashes across a run -/

theorem hashesOf_insert (db : DB) (h : String) (tags : List String) :
    hashesOf (dbInsertImage db h tags) = hashesOf db ++ [h] := by
  simp [hashesOf, dbInsertImage]

theorem contains_iff (l : List String) (x : String) :
    l.contains x = true ↔ x ∈ l := by
  simp

theorem processItem_db_cases (env : String → ItemEnv) (st : PipeState)
    (p : String) :
    (processItem env st p).db = st.db ∨
    ∃ h, (env p).hashResult = some h ∧
      h ∉ hashesOf st.db ∧ (env p).copyFails = false ∧
      (processItem env st p).db = dbInsertImage st.db h (env p).tags := by
  rcases hh : (env p).hashResult with _ | h
  · left
    rw [processItem_step_none env st p hh]
  · by_cases hc : h ∈ hashesOf st.db
    · left
      simp [processItem, hh, hc]
    · by_cases hf : (env p).copyFails
      · left
        simp [processItem, hh, hc, hf]
      · right
        exact ⟨h, rfl, hc, by simpa using hf,
          by simp [processItem, hh, hc, hf]⟩

theorem processItem_hashes_mono (env : String → ItemEnv) (st : PipeState)
    (p : String) (x : String) (hx : x ∈ hashesOf st.db) :
    x ∈ hashesOf (processItem env st p).db := by
  rcases processItem_db_cases env st p with hsame | ⟨h, _, _, _, hdb⟩
  · rw [hsame]; exact hx
  · rw [hdb, hashesOf_insert]
    exact List.mem_append_left _ hx

theorem foldl_hashes_mono (env : String → ItemEnv) :
    ∀ (ps : List String) (st : PipeState) (x : String),
      x ∈ hashesOf st.db →
      x ∈ hashesOf ((ps.foldl (processItem env) st).db) := by
  intro ps
  induction ps with
  | nil => intro st x hx; exact hx
  | cons q rest ih =>
    intro st x hx
    exact ih (processItem env st q) x (processItem_hashes_mono env st q x hx)

theorem foldl_covers (env : String → ItemEnv) :
    ∀ (ps : List String) (st : PipeState) (p : String) (h : String),
      p ∈ ps → (env p).hashResult = some h → (env p).copyFails = false →
      h ∈ hashesOf ((ps.foldl (processItem env) st).db) := by
  intro ps
  induction ps with
  | nil => intro st p h hp; exact absurd hp (List.not_mem_nil p)
  | cons q rest ih =>
    intro st p h hp hhash hcopy
    rcases List.mem_cons.mp hp with rfl | hmem
    · rw [List.foldl_cons]
      by_cases hc : h ∈ hashesOf st.db
      · exact foldl_hashes_mono env rest _ h
          (processItem_hashes_mono env st p h hc)
      · have hdb : (processItem env st p).db =
            dbInsertImage st.db h (env p).tags := by
          simp [processItem, hhash, hc, hcopy]
        apply foldl_hashes_mono env rest _ h
        rw [hdb, hashesOf_insert]
        exact List.mem_append_right _ (List.mem_singleton.mpr rfl)
    · exact ih (processItem env st q) p h hmem hhash hcopy

theorem processItem_hashes_nodup (env : String → ItemEnv) (st : PipeState)
    (p : String) (hnd : (hashesOf st.db).Nodup) :
    (hashesOf (processItem env st p).db).Nodup := by
  rcases processItem_db_cases env st p with hsame | ⟨h, _, hnot, _, hdb⟩
  · rw [hsame]; exact hnd
  · rw [hdb, hashesOf_insert]
    rw [List.nodup_append]
    exact ⟨hnd, List.nodup_singleton h,
      fun a ha hb => hnot ((List.mem_singleton.mp hb) ▸ ha)⟩

theorem foldl_hashes_nodup (env : String → ItemEnv) :
    ∀ (ps : List String) (st : PipeState),
      (hashesOf st.db).Nodup →
      (hashesOf ((ps.foldl (processItem env) st).db)).Nodup := by
  intro ps
  induction ps with
  | nil => intro st h; exact h
  | cons q rest ih =>
    intro st h
    exact ih (processItem env st q) (processItem_hashes_nodup env st q h)

theorem foldl_stable (env : String → ItemEnv) :
    ∀ (ps : List String) (st : PipeState),
      (∀ p ∈ ps, ∀ h, (env p).hashResult = some h →
        (env p).copyFails = false → h ∈ hashesOf st.db) →
      (ps.foldl (processItem env) st).db = st.db ∧
      (ps.foldl (processItem env) st).outcomes =
        st.outcomes ++ ps.map (staticOutcome env st.db) := by
  intro ps
  induction ps with
  | nil => intro st _; exact ⟨rfl, by simp⟩
  | cons q rest ih =>
    intro st hst
    rcases hh : (env q).hashResult with _ | h
    · rw [List.foldl_cons, processItem_step_none env st q hh]
      obtain ⟨hdb, hout⟩ := ih { st with outcomes := st.outcomes ++ [.hashFail] }
        (fun p hp h' h1 h2 => hst p (List.mem_cons_of_mem q hp) h' h1 h2)
      refine ⟨hdb, ?_⟩
      rw [hout]
      simp [staticOutcome, hh]
    · by_cases hc : h ∈ hashesOf st.db
      · have hstep : processItem env st q =
            { st with skipped := st.skipped + 1,
                      processed := st.processed + 1,
                      writes := st.writes ++
                        [⟨st.total, st.processed + 1, "processing"⟩],
                      outcomes := st.outcomes ++ [.dupSkip] } := by
          simp [processItem, hh, hc]
        rw [List.foldl_cons, hstep]
        obtain ⟨hdb, hout⟩ := ih
          { st with skipped := st.skipped + 1,
                    processed := st.processed + 1,
                    writes := st.writes ++
                      [⟨st.total, st.processed + 1, "processing"⟩],
                    outcomes := st.outcomes ++ [.dupSkip] }
          (fun p hp h' h1 h2 => hst p (List.mem_cons_of_mem q hp) h' h1 h2)
        refine ⟨hdb, ?_⟩
        rw [hout]
        simp [staticOutcome, hh, hc]
      · have hcf : (env q).copyFails = true := by
          by_contra hcf'
          exact hc (hst q (List.mem_cons_self q rest) h hh
            (Bool.not_eq_true _ ▸ hcf'))
        have hstep : processItem env st q =
            { st with processed := st.processed + 1,
                      writes := st.writes ++
                        [⟨st.total, st.processed + 1, "processing"⟩],
                      outcomes := st.outcomes ++ [.errorSkip] } := by
          simp [processItem, hh, hc, hcf]
        rw [List.foldl_cons, hstep]
        obtain ⟨hdb, hout⟩ := ih
          { st with processed := st.processed + 1,
                    writes := st.writes ++
                      [⟨st.total, st.processed + 1, "processing"⟩],
                    outcomes := st.outcomes ++ [.errorSkip] }
          (fun p hp h' h1 h2 => hst p (List.mem_cons_of_mem q hp) h' h1 h2)
        refine ⟨hdb, ?_⟩
        rw [hout]
        simp [staticOutcome, hh, hc]

/-! ## Claim theorems: import idempotence and hash uniqueness (C1) -/

/-- C1: starting from a catalog with pairwise-distinct hashes, one run
keeps all hashes distinct (at most one record per hash, matching the
schema's UNIQUE constraint and the pre-insert dedup check); re-running
the import with the same file list and the same per-file environment
leaves the catalog exactly unchanged (in particular the record count);
and every file whose content hash is already catalogued after the
first run gets per-item outcome "skipped duplicate" — no new record —
in the second run. -/
theorem import_idempotent (env : String → ItemEnv) (paths : List String)
    (bs : Nat) (db0 : DB) (hnd : (hashesOf db0).Nodup) :
    (hashesOf (runImport env paths bs db0).db).Nodup ∧
    (runImport env paths bs (runImport env paths bs db0).db).db =
      (runImport env paths bs db0).db ∧
    (∀ (i : Nat) (p h : String), paths[i]? = some p →
      (env p).hashResult = some h →
      h ∈ hashesOf (runImport env paths bs db0).db →
      (runImport env paths bs
        (runImport env paths bs db0).db).outcomes[i]? =
          some ItemOutcome.dupSkip) := by
  simp only [runImport_eq_flat]
  simp only [runFlat]
  have hcov : ∀ p ∈ paths, ∀ h, (env p).hashResult = some h →
      (env p).copyFails = false →
      h ∈ hashesOf ((paths.foldl (processItem env)
        ⟨db0, 0, 0, paths.length, [⟨paths.length, 0, "starting"⟩], []⟩).db) :=
    fun p hp h h1 h2 => foldl_covers env paths _ p h hp h1 h2
  obtain ⟨hdb2, hout2⟩ := foldl_stable env paths
    ⟨(paths.foldl (processItem env)
        ⟨db0, 0, 0, paths.length, [⟨paths.length, 0, "starting"⟩], []⟩).db,
      0, 0, paths.length, [⟨paths.length, 0, "starting"⟩], []⟩ hcov
  refine ⟨foldl_hashes_nodup env paths _ hnd, hdb2, ?_⟩
  intro i p h hip hhash hmem
  rw [hout2]
  simp only [List.nil_append, List.getElem?_map, hip, Option.map_some]
  simp [staticOutcome, hhash, hmem]

/-- Witness for C1: importing two distinct files twice — the catalog
keeps distinct hashes and the second run skips the first file as a
duplicate. -/
theorem import_idempotent_witness :
    (hashesOf (runImport (fun p => ⟨some p, false, ["x"]⟩) ["a", "b"] 20
      dbEmpty).db).Nodup ∧
    (runImport (fun p => ⟨some p, false, ["x"]⟩) ["a", "b"] 20
      (runImport (fun p => ⟨some p, false, ["x"]⟩) ["a", "b"] 20
        dbEmpty).db).outcomes[0]? = some ItemOutcome.dupSkip := by
  obtain ⟨h1, _, h3⟩ := import_idempotent (fun p => ⟨some p, false, ["x"]⟩)
    ["a", "b"] 20 dbEmpty (by simp [hashesOf, dbEmpty])
  exact ⟨h1, h3 0 "a" "a" rfl rfl (by rw [runImport_eq_flat]; decide)⟩

/-! ## Helper lemmas: tag-row counts -/

theorem lookupCount_cons (r : String × ℤ) (rows : List (String × ℤ))
    (t : String) :
    lookupCount (r :: rows) t = if r.1 = t then r.2 else lookupCount rows t := by
  simp only [lookupCount, List.find?_cons]
  by_cases h : r.1 = t <;> simp [h]

theorem lookup_incMap_ne (rows : List (String × ℤ)) (t₀ t : String)
    (hne : t ≠ t₀) :
    lookupCount (rows.map (fun r => if r.1 = t₀ then (r.1, r.2 + 1) else r)) t =
      lookupCount rows t := by
  induction rows with
  | nil => rfl
  | cons r rs ih =>
    by_cases hr : r.1 = t₀
    · simp only [List.map_cons, if_pos hr]
      rw [lookupCount_cons, lookupCount_cons]
      have hne2 : ¬ r.1 = t := fun hrt => hne ((hrt ▸ hr : t = t₀))
      rw [if_neg hne2, if_neg hne2, ih]
    · simp only [List.map_cons, if_neg hr]
      rw [lookupCount_cons, lookupCount_cons, ih]

theorem lookup_incMap_eq (rows : List (String × ℤ)) (t₀ : String)
    (hmem : rows.any (fun r => r.1 = t₀) = true) :
    lookupCount (rows.map (fun r => if r.1 = t₀ then (r.1, r.2 + 1) else r)) t₀ =
      lookupCount rows t₀ + 1 := by
  induction rows with
  | nil => simp at hmem
  | cons r rs ih =>
    by_cases hr : r.1 = t₀
    · simp only [List.map_cons, if_pos hr]
      rw [lookupCount_cons, lookupCount_cons, if_pos hr, if_pos hr]
    · simp only [List.map_cons, if_neg hr]
      rw [lookupCount_cons, lookupCount_cons, if_neg hr, if_neg hr]
      refine ih ?_
      simpa [List.any_cons, hr] using hmem

theorem lookup_decTag_ne (rows : List (String × ℤ)) (t₀ t : String)
    (hne : t ≠ t₀) :
    lookupCount (decTag rows t₀) t = lookupCount rows t := by
  unfold decTag
  induction rows with
  | nil => rfl
  | cons r rs ih =>
    by_cases hr : r.1 = t₀
    · simp only [List.map_cons, if_pos hr]
      rw [lookupCount_cons, lookupCount_cons]
      have hne2 : ¬ r.1 = t := fun hrt => hne ((hrt ▸ hr : t = t₀))
      rw [if_neg hne2, if_neg hne2, ih]
    · simp only [List.map_cons, if_neg hr]
      rw [lookupCount_cons, lookupCount_cons, ih]

theorem lookup_decTag_eq (rows : List (String × ℤ)) (t₀ : String)
    (hmem : rows.any (fun r => r.1 = t₀) = true) :
    lookupCount (decTag rows t₀) t₀ = lookupCount rows t₀ - 1 := by
  unfold decTag
  induction rows with
  | nil => simp at hmem
  | cons r rs ih =>
    by_cases hr : r.1 = t₀
    · simp only [List.map_cons, if_pos hr]
      rw [lookupCount_cons, lookupCount_cons, if_pos hr, if_pos hr]
    · simp only [List.map_cons, if_neg hr]
      rw [lookupCount_cons, lookupCount_cons, if_neg hr, if_neg hr]
      refine ih ?_
      simpa [List.any_cons, hr] using hmem

theorem lookup_append_new (rows : List (String × ℤ)) (t₀ t : String)
    (hnot : ¬ rows.any (fun r => r.1 = t₀) = true) :
    lookupCount (rows ++ [(t₀, 1)]) t =
      lookupCount rows t + if t = t₀ then 1 else 0 := by
  induction rows with
  | nil =>
    by_cases ht : t = t₀
    · subst ht
      rw [List.nil_append, lookupCount_cons, if_pos rfl, if_pos rfl]
      rfl
    · have : ¬ (t₀, (1 : ℤ)).1 = t := fun hx => ht (by simpa using hx.symm)
      rw [List.nil_append, lookupCount_cons, if_neg this, if_neg ht]
      rfl
  | cons r rs ih =>
    have hnot' : ¬ rs.any (fun r => r.1 = t₀) = true := by
      intro hx
      exact hnot (by simp [List.any_cons, hx])
    rw [List.cons_append, lookupCount_cons, lookupCount_cons]
    by_cases hr : r.1 = t
    · rw [if_pos hr, if_pos hr]
      by_cases ht : t = t₀
      · exfalso
        exact hnot (by simp [List.any_cons, hr, ht])
      · rw [if_neg ht, add_zero]
    · rw [if_neg hr, if_neg hr, ih hnot']

theorem lookup_bumpTag (rows : List (String × ℤ)) (t₀ t : String) :
    lookupCount (bumpTag rows t₀) t =
      lookupCount rows t + if t = t₀ then 1 else 0 := by
  unfold bumpTag
  by_cases hmem : rows.any (fun r => r.1 = t₀) = true
  · rw [if_pos hmem]
    by_cases ht : t = t₀
    · subst ht
      rw [lookup_incMap_eq rows t hmem, if_pos rfl]
    · rw [lookup_incMap_ne rows t₀ t ht, if_neg ht, add_zero]
  · rw [if_neg hmem]
    exact lookup_append_new rows t₀ t hmem

theorem lookup_foldl_bumpTag (tags : List String) :
    ∀ (rows : List (String × ℤ)) (t : String), tags.Nodup →
      lookupCount (tags.foldl bumpTag rows) t =
        lookupCount rows t + if t ∈ tags then 1 else 0 := by
  induction tags with
  | nil => intro rows t _; simp
  | cons t₀ rest ih =>
    intro rows t hnd
    rw [List.foldl_cons, ih (bumpTag rows t₀) t (List.Nodup.of_cons hnd),
      lookup_bumpTag]
    by_cases ht : t = t₀
    · subst ht
      have htr : t ∉ rest := (List.nodup_cons.mp hnd).1
      simp [htr]
    · simp [List.mem_cons, ht, add_assoc]

theorem any_incMap (rows : List (String × ℤ)) (t₀ x : String) :
    ((rows.map (fun r => if r.1 = t₀ then (r.1, r.2 + 1) else r)).any
      (fun r => r.1 = x)) = rows.any (fun r => r.1 = x) := by
  induction rows with
  | nil => rfl
  | cons r rs ih =>
    by_cases hr : r.1 = t₀ <;>
      simp only [List.map_cons, if_pos, if_neg, hr, ite_true, ite_false,
        List.any_cons, ih]

theorem any_decTag (rows : List (String × ℤ)) (t₀ x : String) :
    ((decTag rows t₀).any (fun r => r.1 = x)) = rows.any (fun r => r.1 = x) := by
  unfold decTag
  induction rows with
  | nil => rfl
  | cons r rs ih =>
    by_cases hr : r.1 = t₀ <;>
      simp only [List.map_cons, if_pos, if_neg, hr, ite_true, ite_false,
        List.any_cons, ih]

theorem any_foldl_dec (cur newTags : List String) :
    ∀ (rows : List (String × ℤ)) (x : String),
      rows.any (fun rr => rr.1 = x) = true →
      ((cur.foldl (fun rows y => if y ∈ newTags then rows else decTag rows y)
        rows).any (fun rr => rr.1 = x)) = true := by
  induction cur with
  | nil => intro rows x hx; exact hx
  | cons y rest ih =>
    intro rows x hx
    rw [List.foldl_cons]
    refine ih _ x ?_
    by_cases hy : y ∈ newTags
    · simpa [hy] using hx
    · simpa [hy, any_decTag] using hx

theorem lookup_foldl_dec (cur newTags : List String) :
    ∀ (rows : List (String × ℤ)) (t : String), cur.Nodup →
      (∀ x ∈ cur, x ∉ newTags → rows.any (fun r => r.1 = x) = true) →
      lookupCount (cur.foldl
        (fun rows x => if x ∈ newTags then rows else decTag rows x) rows) t =
        lookupCount rows t - (if t ∈ cur ∧ t ∉ newTags then 1 else 0) := by
  induction cur with
  | nil => intro rows t _ _; simp
  | cons x rest ih =>
    intro rows t hnd hpres
    rw [List.foldl_cons]
    by_cases hx : x ∈ newTags
    · rw [if_pos hx]
      rw [ih rows t (List.Nodup.of_cons hnd)
        (fun y hy hyn => hpres y (List.mem_cons_of_mem x hy) hyn)]
      by_cases ht : t = x
      · subst ht
        simp [hx, List.mem_cons]
      · simp [List.mem_cons, ht]
    · rw [if_neg hx]
      have hpres1 : ∀ y ∈ rest, y ∉ newTags →
          (decTag rows x).any (fun r => r.1 = y) = true := by
        intro y hy hyn
        rw [any_decTag]
        exact hpres y (List.mem_cons_of_mem x hy) hyn
      rw [ih (decTag rows x) t (List.Nodup.of_cons hnd) hpres1]
      by_cases ht : t = x
      · subst ht
        have hmem := hpres t (List.mem_cons_self t rest) hx
        rw [lookup_decTag_eq rows t hmem]
        have htr : t ∉ rest := (List.nodup_cons.mp hnd).1
        simp [hx, htr, List.mem_cons]
      · rw [lookup_decTag_ne rows x t ht]
        simp [List.mem_cons, ht]

theorem any_bumpTagUpd (cur : List String) (rows : List (String × ℤ))
    (t₀ x : String) (hx : rows.any (fun r => r.1 = x) = true) :
    (bumpTagUpd cur rows t₀).any (fun r => r.1 = x) = true := by
  unfold bumpTagUpd
  split_ifs
  · exact hx
  · rw [any_incMap]
    exact hx
  · simp [List.any_append, hx]

theorem lookup_bumpTagUpd (cur : List String) (rows : List (String × ℤ))
    (t₀ t : String)
    (hpres : t₀ ∈ cur → rows.any (fun r => r.1 = t₀) = true) :
    lookupCount (bumpTagUpd cur rows t₀) t =
      lookupCount rows t + (if t = t₀ ∧ t₀ ∉ cur then 1 else 0) := by
  unfold bumpTagUpd
  by_cases hmem : rows.any (fun r => r.1 = t₀) = true
  · rw [if_pos hmem]
    by_cases hcur : t₀ ∈ cur
    · rw [if_pos hcur]
      simp [hcur]
    · rw [if_neg hcur]
      by_cases ht : t = t₀
      · subst ht
        rw [lookup_incMap_eq rows t hmem]
        simp [hcur]
      · rw [lookup_incMap_ne rows t₀ t ht]
        simp [ht]
  · rw [if_neg hmem]
    have hncur : t₀ ∉ cur := fun hcur => hmem (hpres hcur)
    rw [lookup_append_new rows t₀ t hmem]
    by_cases ht : t = t₀ <;> simp [ht, hncur]

theorem lookup_foldl_bumpUpd (newTags cur : List String) :
    ∀ (rows : List (String × ℤ)) (t : String), newTags.Nodup →
      (∀ x ∈ newTags, x ∈ cur → rows.any (fun r => r.1 = x) = true) →
      lookupCount (newTags.foldl (bumpTagUpd cur) rows) t =
        lookupCount rows t + (if t ∈ newTags ∧ t ∉ cur then 1 else 0) := by
  induction newTags with
  | nil => intro rows t _ _; simp
  | cons x rest ih =>
    intro rows t hnd hpres
    rw [List.foldl_cons]
    have hpres1 : ∀ y ∈ rest, y ∈ cur →
        (bumpTagUpd cur rows x).any (fun r => r.1 = y) = true :=
      fun y hy hcy =>
        any_bumpTagUpd cur rows x y (hpres y (List.mem_cons_of_mem x hy) hcy)
    rw [ih (bumpTagUpd cur rows x) t (List.Nodup.of_cons hnd) hpres1]
    rw [lookup_bumpTagUpd cur rows x t
      (fun hcx => hpres x (List.mem_cons_self x rest) hcx)]
    by_cases ht : t = x
    · subst ht
      have htr : t ∉ rest := (List.nodup_cons.mp hnd).1
      by_cases hcur : t ∈ cur <;> simp [htr, hcur, List.mem_cons]
    · simp [List.mem_cons, ht, add_assoc]

theorem lookup_eq_zero_of_no_row (rows : List (String × ℤ)) (x : String)
    (hno : ¬ rows.any (fun r => r.1 = x) = true) : lookupCount rows x = 0 := by
  have h' : ∀ r ∈ rows, ¬ r.1 = x := by
    intro r hr hrx
    exact hno (List.any_eq_true.mpr ⟨r, hr, by simpa using hrx⟩)
  unfold lookupCount
  rw [List.find?_eq_none.mpr (fun r hr => by simpa using h' r hr)]

theorem refCount_pos_of_mem (db : DB) (r : ImageRec) (hr : r ∈ db.images)
    (x : String) (hx : x ∈ r.tags) : 0 < refCount db x := by
  have hmem : r ∈ db.images.filter (fun rec => x ∈ rec.tags) :=
    List.mem_filter.mpr ⟨hr, by simpa using hx⟩
  exact List.length_pos.mpr (List.ne_nil_of_mem hmem)

theorem row_present_of_refCount_pos (db : DB) (x : String) (hinv : TagInv db)
    (hpos : 0 < refCount db x) :
    db.tagRows.any (fun rr => rr.1 = x) = true := by
  by_contra hno
  have h0 : lookupCount db.tagRows x = 0 := lookup_eq_zero_of_no_row _ x hno
  have hi := hinv x
  omega

theorem refCount_insert (db : DB) (h : String) (tags : List String)
    (t : String) :
    refCount (dbInsertImage db h tags) t =
      refCount db t + if t ∈ tags then 1 else 0 := by
  simp only [refCount, dbInsertImage, List.filter_append]
  by_cases ht : t ∈ tags <;> simp [ht]

theorem TagInv_insert (db : DB) (h : String) (tags : List String)
    (hnd : tags.Nodup) (hinv : TagInv db) : TagInv (dbInsertImage db h tags) := by
  intro t
  have h1 : lookupCount (dbInsertImage db h tags).tagRows t =
      lookupCount db.tagRows t + if t ∈ tags then 1 else 0 := by
    simp only [dbInsertImage]
    exact lookup_foldl_bumpTag tags db.tagRows t hnd
  rw [h1, refCount_insert, hinv t]
  by_cases ht : t ∈ tags <;> simp [ht]

theorem filter_update_count (images : List ImageRec) (i : Nat)
    (newTags : List String) (t : String) (r : ImageRec)
    (hnd : (images.map (fun x => x.id)).Nodup)
    (hfind : images.find? (fun x => x.id = i) = some r) :
    (((images.map (fun x => if x.id = i then { x with tags := newTags }
        else x)).filter (fun x => t ∈ x.tags)).length : ℤ) =
    ((images.filter (fun x => t ∈ x.tags)).length : ℤ)
      - (if t ∈ r.tags ∧ t ∉ newTags then 1 else 0)
      + (if t ∈ newTags ∧ t ∉ r.tags then 1 else 0) := by
  induction images with
  | nil => simp at hfind
  | cons x xs ih =>
    by_cases hx : x.id = i
    · have hr : r = x := by
        rw [List.find?_cons_of_pos _ (by simpa using hx)] at hfind
        exact (Option.some.inj hfind).symm
      subst hr
      have htail : ∀ y ∈ xs, ¬ y.id = i := by
        intro y hy hyid
        have hnotin := (List.nodup_cons.mp hnd).1
        exact hnotin (List.mem_map.mpr ⟨y, hy, by show y.id = r.id; rw [hyid, hx]⟩)
      have hmap : xs.map (fun y => if y.id = i then { y with tags := newTags }
          else y) = xs := by
        rw [List.map_congr_left (fun y hy => if_neg (htail y hy))]
        exact List.map_id xs
      simp only [List.map_cons, if_pos hx, hmap, List.filter_cons]
      by_cases h1 : t ∈ newTags <;> by_cases h2 : t ∈ r.tags <;>
        simp [h1, h2]
    · have hfind' : xs.find? (fun y => y.id = i) = some r := by
        rwa [List.find?_cons_of_neg _ (by simpa using hx)] at hfind
      have hnd' := (List.nodup_cons.mp hnd).2
      have ihx := ih hnd' hfind'
      simp only [List.map_cons, if_neg hx, List.filter_cons]
      by_cases h2 : t ∈ x.tags <;>
        (simp [h2]; split_ifs at ihx ⊢ <;> omega)

theorem TagInv_update (db : DB) (i : Nat) (newTags : List String)
    (hnd : newTags.Nodup) (hg : GoodDB db)
    (hex : db.images.any (fun r => r.id = i) = true) :
    TagInv (dbUpdateTags db i newTags) := by
  obtain ⟨hinv, hstored, hids, _⟩ := hg
  have hfindsome : ∃ r, db.images.find? (fun x => x.id = i) = some r := by
    obtain ⟨r, hr, hri⟩ := List.any_eq_true.mp hex
    exact Option.isSome_iff_exists.mp (List.find?_isSome.mpr ⟨r, hr, hri⟩)
  obtain ⟨r, hfind⟩ := hfindsome
  have hrmem : r ∈ db.images := List.mem_of_find?_eq_some hfind
  have hcurnd : r.tags.Nodup := hstored r hrmem
  have hrowpres : ∀ x ∈ r.tags, db.tagRows.any (fun rr => rr.1 = x) = true :=
    fun x hx => row_present_of_refCount_pos db x hinv
      (refCount_pos_of_mem db r hrmem x hx)
  intro t
  simp only [dbUpdateTags, hfind, refCount]
  rw [lookup_foldl_bumpUpd newTags r.tags _ t hnd
    (fun x _ hxc => any_foldl_dec r.tags newTags db.tagRows x (hrowpres x hxc))]
  rw [lookup_foldl_dec r.tags newTags db.tagRows t hcurnd
    (fun x hx _ => hrowpres x hx)]
  rw [hinv t]
  rw [filter_update_count db.images i newTags t r hids hfind]
  simp only [refCount]

theorem GoodDB_insert (db : DB) (h : String) (tags : List String)
    (hnd : tags.Nodup) (hg : GoodDB db) : GoodDB (dbInsertImage db h tags) := by
  obtain ⟨hinv, hstored, hids, hbound⟩ := hg
  refine ⟨TagInv_insert db h tags hnd hinv, ?_, ?_, ?_⟩
  · intro r hr
    simp only [dbInsertImage] at hr
    rcases List.mem_append.mp hr with h1 | h2
    · exact hstored r h1
    · rw [List.mem_singleton.mp h2]
      exact hnd
  · simp only [dbInsertImage, List.map_append]
    rw [List.nodup_append]
    refine ⟨hids, by simp, ?_⟩
    intro a ha hb
    simp only [List.map_cons, List.map_nil, List.mem_singleton] at hb
    obtain ⟨rec, hrec, hrecid⟩ := List.mem_map.mp ha
    subst hb
    exact absurd (hrecid ▸ hbound rec hrec) (lt_irrefl _)
  · intro r hr
    simp only [dbInsertImage] at hr ⊢
    rcases List.mem_append.mp hr with h1 | h2
    · exact Nat.lt_succ_of_lt (hbound r h1)
    · rw [List.mem_singleton.mp h2]
      exact Nat.lt_succ_self _

theorem GoodDB_update (db : DB) (i : Nat) (newTags : List String)
    (hnd : newTags.Nodup)
    (hex : db.images.any (fun r => r.id = i) = true) (hg : GoodDB db) :
    GoodDB (dbUpdateTags db i newTags) := by
  have hTI := TagInv_update db i newTags hnd hg hex
  obtain ⟨hinv, hstored, hids, hbound⟩ := hg
  have hfindsome : ∃ r, db.images.find? (fun x => x.id = i) = some r := by
    obtain ⟨r, hr, hri⟩ := List.any_eq_true.mp hex
    exact Option.isSome_iff_exists.mp (List.find?_isSome.mpr ⟨r, hr, hri⟩)
  obtain ⟨r, hfind⟩ := hfindsome
  refine ⟨hTI, ?_, ?_, ?_⟩
  · intro r' hr'
    simp only [dbUpdateTags, hfind] at hr'
    obtain ⟨y, hy, hyr⟩ := List.mem_map.mp hr'
    by_cases hyid : y.id = i
    · rw [← hyr, if_pos hyid]
      exact hnd
    · rw [← hyr, if_neg hyid]
      exact hstored y hy
  · simp only [dbUpdateTags, hfind]
    have hmapid : (db.images.map (fun x => if x.id = i
        then { x with tags := newTags } else x)).map (fun x => x.id) =
        db.images.map (fun x => x.id) := by
      rw [List.map_map]
      refine List.map_congr_left ?_
      intro y _
      by_cases hyid : y.id = i <;> simp [hyid]
    rw [hmapid]
    exact hids
  · intro r' hr'
    simp only [dbUpdateTags, hfind] at hr' ⊢
    obtain ⟨y, hy, hyr⟩ := List.mem_map.mp hr'
    have hidy : r'.id = y.id := by
      by_cases hyid : y.id = i <;> rw [← hyr] <;> simp [hyid]
    rw [hidy]
    exact hbound y hy

theorem wfOps_goodDB : ∀ (ops : List TagOp) (db : DB), GoodDB db →
    wfOps db ops = true → GoodDB (applyOps db ops) := by
  intro ops
  induction ops with
  | nil => intro db hg _; exact hg
  | cons op rest ih =>
    intro db hg hwf
    simp only [wfOps, Bool.and_eq_true] at hwf
    obtain ⟨hop, hrest⟩ := hwf
    refine ih (applyOp db op) ?_ hrest
    cases op with
    | insert h tags =>
      have hnd : tags.Nodup := by
        simp only [wfOp, decide_eq_true_eq] at hop
        exact List.dedup_eq_self.mp hop
      exact GoodDB_insert db h tags hnd hg
    | update i tags =>
      simp only [wfOp, Bool.and_eq_true, decide_eq_true_eq] at hop
      obtain ⟨h1, h2⟩ := hop
      exact GoodDB_update db i tags (List.dedup_eq_self.mp h1) h2 hg

/-! ## Claim theorems: tag-count invariant (C2) -/

/-- C2 counterexample: one record insertion whose tag list carries a
duplicate tag — `["cat", "cat"]`, producible by the classifier from a
response such as `"TAGS: cat, cat"` — leaves the `tags` table with
`count = 2` for `cat` while exactly one record's stored tag set
contains `cat`: the per-tag loop increments once per occurrence, not
once per referencing record, so the invariant as claimed fails. -/
theorem tag_count_duplicate_cex :
    lookupCount (applyOps dbEmpty
      [.insert "h" ["cat", "cat"]]).tagRows "cat" = 2 ∧
    refCount (applyOps dbEmpty [.insert "h" ["cat", "cat"]]) "cat" = 1 ∧
    ¬ TagInv (applyOps dbEmpty [.insert "h" ["cat", "cat"]]) := by
  have h1 : lookupCount (applyOps dbEmpty
      [.insert "h" ["cat", "cat"]]).tagRows "cat" = 2 := by decide
  have h2 : refCount (applyOps dbEmpty [.insert "h" ["cat", "cat"]]) "cat"
      = 1 := by decide
  refine ⟨h1, h2, fun hinv => ?_⟩
  have := hinv "cat"
  rw [h1, h2] at this
  exact absurd this (by decide)

/-- C2 (amended): for every tag, after any sequence of record
insertions and tag-set edits via the tag-update operation in which
every inserted tag list and every new tag set is duplicate-free and
every edit targets an existing record id, the stored count in the
`tags` table equals the number of ImageRecords whose stored tag set
contains that tag.  (Duplicates in a tag list over-count — see the
counterexample — and an edit of a nonexistent id can create tag rows
referenced by no record.) -/
theorem tag_count_invariant (ops : List TagOp)
    (hwf : wfOps dbEmpty ops = true) : TagInv (applyOps dbEmpty ops) := by
  refine (wfOps_goodDB ops dbEmpty ⟨?_, ?_, ?_, ?_⟩ hwf).1
  · intro t
    rfl
  · intro r hr
    exact absurd hr (List.not_mem_nil r)
  · simp [dbEmpty]
  · intro r hr
    exact absurd hr (List.not_mem_nil r)

/-- Witness for C2: a concrete insert followed by a tag edit keeps the
invariant. -/
theorem tag_count_invariant_witness :
    TagInv (applyOps dbEmpty
      [.insert "h" ["cat", "dog"], .update 0 ["dog", "bird"]]) :=
  tag_count_invariant [.insert "h" ["cat", "dog"], .update 0 ["dog", "bird"]]
    (by decide)
